import Mathlib

/-!
Verification development for the cost-aware AI gateway of the codora
extension: the usage ledger (`CostTracker`), the response cache
(`CacheManager`), the complexity classifier and the per-request
orchestration (`AIManager.generateWithProvider`).

Timestamps are natural numbers of milliseconds (the value of
`Date.now()`); monetary costs are exact rationals.
-/

namespace Codora

/-! ## Usage ledger (`CostTracker`) -/

/-- One usage record, mirroring the `UsageRecord` interface of
`CostTracker.ts`. -/
structure UsageRecord where
  timestamp : ℕ
  cost : ℚ
  tokens : ℕ
  provider : String
  model : String
  requestType : String
deriving DecidableEq

/-- The budget period, mirroring the `budgetPeriod` field
(`daily`, `weekly` or `monthly`; the source defaults to `monthly`). -/
inductive BudgetPeriod where
  | daily
  | weekly
  | monthly
deriving DecidableEq

/-- Milliseconds covered by each budget period, as computed in
`getCurrentPeriodCost`. -/
def BudgetPeriod.millis : BudgetPeriod → ℕ
  | .daily => 24 * 60 * 60 * 1000
  | .weekly => 7 * 24 * 60 * 60 * 1000
  | .monthly => 30 * 24 * 60 * 60 * 1000

/-- The mutable state of a `CostTracker`: its in-memory usage history and
the configuration read at construction time. -/
structure TrackerState where
  usageHistory : List UsageRecord
  budgetLimit : ℚ := 10
  budgetPeriod : BudgetPeriod := .monthly
deriving DecidableEq

/-- Cap applied by `saveUsageHistory` ("Keep only recent records to
prevent storage bloat", `const maxRecords = 10000`). -/
def maxRecords : ℕ := 10000

/-- Model of `CostTracker.getCurrentPeriodCost`: the sum of the costs of
all records whose timestamp is strictly greater than `now` minus the
period length.  (`Date.now()` is passed in as `now`.) -/
def getCurrentPeriodCost (now : ℕ) (st : TrackerState) : ℚ :=
  ((st.usageHistory.filter
      (fun r => now - st.budgetPeriod.millis < r.timestamp)).map
    (fun r => r.cost)).sum

/-- Model of `CostTracker.canMakeRequest`: the current period cost is
strictly below the budget limit. -/
def canMakeRequest (now : ℕ) (st : TrackerState) : Bool :=
  getCurrentPeriodCost now st < st.budgetLimit

/-- Model of `CostTracker.recordUsage` composed with the truncation done
by `saveUsageHistory`: push a record stamped `now`, then keep only the
most recent `maxRecords` records (`slice(-maxRecords)` when the length
exceeds the cap).  The budget warning notifications are UI side effects
and are not modelled; the persisted history equals the in-memory one. -/
def recordUsage (now : ℕ) (cost : ℚ) (tokens : ℕ)
    (provider model requestType : String) (st : TrackerState) : TrackerState :=
  let record : UsageRecord :=
    ⟨now, cost, tokens, provider, model, requestType⟩
  let h := st.usageHistory ++ [record]
  let h' := if h.length > maxRecords then h.drop (h.length - maxRecords) else h
  { st with usageHistory := h' }

/-! ## Response cache (`CacheManager`) -/

/-- One cache entry, mirroring the `CacheEntry` interface. -/
structure CacheEntry where
  content : String
  timestamp : ℕ
  accessCount : ℕ
  lastAccessed : ℕ
deriving DecidableEq

/-- The state of a `CacheManager`.  The JavaScript `Map` is modelled by
an association list in insertion order with (by the `Map` invariant)
pairwise distinct keys; `maxCacheSize` and `maxAge` are the instance
fields, initialised in the source to `1000` entries and 7 days. -/
structure CacheState where
  entries : List (String × CacheEntry)
  hits : ℕ := 0
  misses : ℕ := 0
  maxCacheSize : ℕ := 1000
  maxAge : ℕ := 7 * 24 * 60 * 60 * 1000
deriving DecidableEq

/-- Model of `Map.prototype.get`: the value stored at the first (by the `Map`
invariant, only) occurrence of the key. -/
def mapLookup (k : String) : List (String × CacheEntry) → Option CacheEntry
  | [] => none
  | (k', v) :: rest => if k' = k then some v else mapLookup k rest

/-- Model of `Map.prototype.set`: replace the value in place if the key is
present, otherwise append the binding at the end (insertion order). -/
def mapSet (k : String) (v : CacheEntry) :
    List (String × CacheEntry) → List (String × CacheEntry)
  | [] => [(k, v)]
  | (k', v') :: rest =>
      if k' = k then (k, v) :: rest else (k', v') :: mapSet k v rest

/-- Model of `Map.prototype.delete`: remove the binding of the key (the first
occurrence, which by the `Map` invariant is the only one). -/
def mapDelete (k : String) :
    List (String × CacheEntry) → List (String × CacheEntry)
  | [] => []
  | (k', v') :: rest =>
      if k' = k then rest else (k', v') :: mapDelete k rest

/-- The whitespace class used by the source's `trim()` and `\s`
regex class, modelled by its ASCII core (space, tab, newline, carriage
return). -/
def isJsWhitespace (c : Char) : Bool :=
  c = ' ' ∨ c = '\t' ∨ c = '\n' ∨ c = '\r'

/-- Model of `String.prototype.trim`: drop whitespace from both ends. -/
def trimChars (l : List Char) : List Char :=
  ((l.dropWhile isJsWhitespace).reverse.dropWhile isJsWhitespace).reverse

/-- Helper for `collapseWs`: `prevWs` records whether the previous
character was whitespace, so that only the first character of each
whitespace run emits the single replacement space. -/
def collapseWsAux (prevWs : Bool) : List Char → List Char
  | [] => []
  | c :: rest =>
      if isJsWhitespace c then
        if prevWs then collapseWsAux true rest
        else ' ' :: collapseWsAux true rest
      else c :: collapseWsAux false rest

/-- Model of `replace(/\s+/g, ' ')`: collapse every maximal nonempty run of
whitespace characters into a single space. -/
def collapseWs (l : List Char) : List Char :=
  collapseWsAux false l

/-- Model of `const normalizedCode = code.trim().replace(/\s+/g, ' ')`
in `CacheManager.createCacheKey`. -/
def normalizeCode (code : String) : String :=
  String.mk (collapseWs (trimChars code.data))

/-- The string fed to the digest in `CacheManager.createCacheKey`:
`` `${normalizedCode}|${context}|${language}` ``. -/
def cacheKeyData (code context language : String) : String :=
  normalizeCode code ++ "|" ++ context ++ "|" ++ language

/-- The SHA-256 hex digest used by `createCacheKey`, modelled as the
identity on the input data.  The digest is a deterministic function, so
every key collision exhibited in this model (equal data strings) is a
genuine collision of the source's keys; treating the digest as injective
is exactly the content-addressing assumption the specification makes. -/
def sha256Hex (data : String) : String :=
  data

/-- Model of `CacheManager.createCacheKey`. -/
def createCacheKey (code context language : String) : String :=
  sha256Hex (cacheKeyData code context language)

/-- Model of `CacheManager.get` at instant `now`: returns the value (if
any) and the successor state.  A missing key counts a miss; an entry
older than `maxAge` is deleted and counts a miss; otherwise the entry's
access statistics are refreshed and a hit is counted.  The
`saveCacheToStorage` persistence mirror is the state itself. -/
def cacheGet (now : ℕ) (k : String) (st : CacheState) :
    Option String × CacheState :=
  match mapLookup k st.entries with
  | none => (none, { st with misses := st.misses + 1 })
  | some e =>
      if now - e.timestamp > st.maxAge then
        (none, { st with entries := mapDelete k st.entries,
                         misses := st.misses + 1 })
      else
        (some e.content,
         { st with
            entries := mapSet k
              { e with accessCount := e.accessCount + 1, lastAccessed := now }
              st.entries,
            hits := st.hits + 1 })

/-- The body of the `forEach` scan in
`CacheManager.evictLeastRecentlyUsed`: keep the accumulator unless the
visited entry's `lastAccessed` is strictly smaller. -/
def lruScanStep (acc : String × ℕ) (kv : String × CacheEntry) : String × ℕ :=
  if kv.2.lastAccessed < acc.2 then (kv.1, kv.2.lastAccessed) else acc

/-- Model of `CacheManager.evictLeastRecentlyUsed` at instant `now`
(the source reads `Date.now()` itself; the same clock value is passed
in).  The scan starts from `oldestTime = Date.now()` and an empty
`oldestKey`, keeps the first strictly smaller `lastAccessed` seen, and
deletes the found key only when it is truthy (a nonempty string). -/
def evictLeastRecentlyUsed (now : ℕ) (entries : List (String × CacheEntry)) :
    List (String × CacheEntry) :=
  if entries.length = 0 then entries
  else
    let scan := entries.foldl lruScanStep ("", now)
    if scan.1 ≠ "" then mapDelete scan.1 entries else entries

/-- Model of `CacheManager.set` at instant `now`: if the store already
holds at least `maxCacheSize` entries, run the LRU eviction first, then
insert (or overwrite) the key with a fresh entry stamped `now`. -/
def cacheSet (now : ℕ) (k : String) (content : String) (st : CacheState) :
    CacheState :=
  let st1 :=
    if st.entries.length ≥ st.maxCacheSize then
      { st with entries := evictLeastRecentlyUsed now st.entries }
    else st
  { st1 with
      entries := mapSet k ⟨content, now, 1, now⟩ st1.entries }

/-- Model of `CacheManager.clear`. -/
def cacheClear (st : CacheState) : CacheState :=
  { st with entries := [], hits := 0, misses := 0 }

/-- The statistics snapshot returned by `CacheManager.getStats`.
`sizeBytes` depends on the host's JSON serialisation and is not
modelled. -/
structure CacheStats where
  totalEntries : ℕ
  hitRate : ℚ
  totalHits : ℕ
  totalMisses : ℕ
  oldestEntry : ℕ
  newestEntry : ℕ
deriving DecidableEq

/-- Model of `CacheManager.getStats`: the hit rate is
`hits / (hits + misses)` when at least one request was made (`0`
otherwise), and is then rounded to two decimals by
`Math.round(hitRate * 100) / 100`.  `Math.round` rounds half toward
positive infinity, which on rationals is Mathlib's `round`. -/
def getCacheStats (st : CacheState) : CacheStats :=
  let totalRequests := st.hits + st.misses
  let rawRate : ℚ :=
    if totalRequests > 0 then (st.hits : ℚ) / (totalRequests : ℚ) else 0
  let timestamps := st.entries.map (fun p => p.2.timestamp)
  { totalEntries := st.entries.length
    hitRate := (round (rawRate * 100) : ℚ) / 100
    totalHits := st.hits
    totalMisses := st.misses
    oldestEntry := (timestamps.min?).getD 0
    newestEntry := (timestamps.max?).getD 0 }

/-! ## Complexity classifier (`AIManager.analyzeCodeComplexity`) -/

/-- True when `pat` occurs at the start of `l`. -/
def startsWithChars (l pat : List Char) : Bool :=
  match l, pat with
  | _, [] => true
  | [], _ :: _ => false
  | c :: cs, p :: ps => c = p && startsWithChars cs ps

/-- True when `pat` occurs as a contiguous substring of `l`
(`String.prototype.includes`). -/
def hasSub (pat : List Char) : List Char → Bool
  | [] => startsWithChars [] pat
  | c :: cs => startsWithChars (c :: cs) pat || hasSub pat cs

/-- Model of `haystack.includes(needle)` on strings. -/
def strIncludes (haystack needle : String) : Bool :=
  hasSub needle.data haystack.data

/-- Model of `String.prototype.toLowerCase`, taken character-wise (the inputs
compared against are ASCII keywords). -/
def jsToLowerCase (s : String) : String :=
  String.mk (s.data.map Char.toLower)

/-- Model of `AIManager.calculateMaxNesting`: scan the characters,
incrementing on an opening brace and decrementing (floored at zero, as
the source's `Math.max(0, currentNesting - 1)`) on a closing one, and
return the maximum depth reached. -/
def calculateMaxNesting (code : String) : ℕ :=
  (code.data.foldl
    (fun (p : ℕ × ℕ) c =>
      if c = '{' then (p.1 + 1, max p.2 (p.1 + 1))
      else if c = '}' then (p.1 - 1, p.2)
      else p)
    (0, 0)).2

/-- Factor 1 of `analyzeCodeComplexity`: code length (0-0.2). -/
def lengthFactor (codeLength : ℕ) : ℚ :=
  if codeLength > 1000 then 0.2
  else if codeLength > 500 then 0.15
  else if codeLength > 200 then 0.1
  else if codeLength > 50 then 0.05
  else 0

/-- Factor 2 of `analyzeCodeComplexity`: count of nonblank lines
(0-0.1). -/
def lineFactor (numLines : ℕ) : ℚ :=
  if numLines > 50 then 0.1 else if numLines > 20 then 0.05 else 0

/-- Factor 3 of `analyzeCodeComplexity`: maximum brace nesting
(0-0.15). -/
def nestingFactor (maxNesting : ℕ) : ℚ :=
  if maxNesting > 5 then 0.15
  else if maxNesting > 3 then 0.1
  else if maxNesting > 2 then 0.05
  else 0

/-- Factor 4 of `analyzeCodeComplexity`: for each of the ten
`complexPatterns` regexes, `code.match(pattern)` yields a match count
(zero when `match` returns `null`, contributing nothing) and the factor
adds `Math.min(matches.length * 0.05, 0.25)`.  The regex engine is the
host JavaScript runtime's; its per-pattern match counts enter the model
as the explicit list `patternCounts` (the i-th element is the i-th
pattern's count), so every theorem below holds for every possible
outcome of the regex matching. -/
def patternFactor (patternCounts : List ℕ) : ℚ :=
  patternCounts.foldl (fun acc n => acc + min ((n : ℚ) * 0.05) 0.25) 0

/-- Factor 5 of `analyzeCodeComplexity`: language bonus (0-0.1);
the `html`/`css`/`json` case and the missing default case both add 0. -/
def languageFactor (language : String) : ℚ :=
  let l := jsToLowerCase language
  if l = "typescript" ∨ l = "rust" ∨ l = "c++" then 0.1
  else if l = "python" ∨ l = "javascript" then 0.05
  else 0

/-- Factor 6 of `analyzeCodeComplexity`: count of matches of the
function-definition regex (again an outcome of the host regex engine,
passed in explicitly; `null` is count zero). -/
def functionFactor (functionCount : ℕ) : ℚ :=
  if functionCount > 5 then 0.1 else if functionCount > 2 then 0.05 else 0

/-- Factor 7 of `analyzeCodeComplexity`: keyword bonus from the context
string (0-0.15). -/
def contextFactor (context : String) : ℚ :=
  let lc := jsToLowerCase context
  if strIncludes lc "algorithm" ∨ strIncludes lc "optimization" ∨
     strIncludes lc "performance" ∨ strIncludes lc "security" ∨
     strIncludes lc "architecture" then 0.15
  else if strIncludes lc "logic" ∨ strIncludes lc "business" ∨
          strIncludes lc "complex" then 0.1
  else 0

/-- Model of `String.prototype.split` with a single-character separator: the
segments between occurrences of `sep` (empty segments included, as in
JavaScript). -/
def splitOnChar (sep : Char) : List Char → List (List Char)
  | [] => [[]]
  | c :: rest =>
      match splitOnChar sep rest with
      | [] => [[c]]
      | h :: t => if c = sep then [] :: h :: t else (c :: h) :: t

/-- The count of nonblank lines:
`code.split('\n').filter(line => line.trim().length > 0)`. -/
def nonBlankLineCount (code : String) : ℕ :=
  ((splitOnChar '\n' code.data).filter
    (fun l => (trimChars l).length > 0)).length

/-- Model of `AIManager.analyzeCodeComplexity`: the sum of the seven
factors, clamped to `[0,1]` by `Math.min(Math.max(score, 0.0), 1.0)`.
The two regex-engine outcomes (the ten `complexPatterns` counts and the
function-definition count) are explicit arguments, quantifying the model
over every behaviour of the host's regex engine. -/
def analyzeCodeComplexity (patternCounts : List ℕ) (functionCount : ℕ)
    (code context language : String) : ℚ :=
  let score :=
    lengthFactor code.length
    + lineFactor (nonBlankLineCount code)
    + nestingFactor (calculateMaxNesting code)
    + patternFactor patternCounts
    + languageFactor language
    + functionFactor functionCount
    + contextFactor context
  min (max score 0) 1

/-! ## Tier routing (`AIManager.generateExplanation`, dual mode) -/

/-- The two provider tiers of the dual-provider system. -/
inductive Tier where
  | performance
  | efficiency
deriving DecidableEq

/-- The dual-mode configuration fields read by `generateExplanation`
(defaults as in `loadConfiguration`). -/
structure DualConfig where
  complexityThreshold : Option ℚ := some 0.6
  performanceModel : String := "gpt-4"
  efficiencyModel : String := "gpt-3.5-turbo"
deriving DecidableEq

/-- The threshold actually compared against, modelling
`this.configuration.complexityThreshold || 0.6`: JavaScript `||` also
replaces a configured `0` by the default. -/
def effectiveThreshold (cfg : DualConfig) : ℚ :=
  match cfg.complexityThreshold with
  | some t => if t = 0 then 0.6 else t
  | none => 0.6

/-- Model of the routing decision of `AIManager.generateExplanation` in
dual-provider mode with both tiers configured: compute the complexity
score, then pick the performance tier and model iff
`complexity >= threshold`, the efficiency ones otherwise. -/
def generateExplanationRoute (cfg : DualConfig) (patternCounts : List ℕ)
    (functionCount : ℕ) (code context language : String) : Tier × String :=
  let complexity :=
    analyzeCodeComplexity patternCounts functionCount code context language
  let threshold := effectiveThreshold cfg
  if complexity ≥ threshold then (.performance, cfg.performanceModel)
  else (.efficiency, cfg.efficiencyModel)

/-! ## Gateway orchestration (`AIManager.generateWithProvider`) -/

/-- The fields of a provider adapter response (`AIResponse`) that the
gateway consumes. -/
structure ProviderResponse where
  content : String
  cost : ℚ
  tokensTotal : ℕ
  provider : String
  model : String
deriving DecidableEq

/-- The observable outcome of one `generateWithProvider` call:
the thrown budget error, a cache hit, a generated response, or the
rethrown provider failure. -/
inductive GenResult where
  | budgetExceeded
  | cachedHit (content : String)
  | generated (content : String)
  | providerFailed
deriving DecidableEq

/-- The result of one request together with the successor states and
whether the provider adapter's `generateResponse` was invoked. -/
structure GatewayOutcome where
  result : GenResult
  tracker : TrackerState
  cache : CacheState
  providerCalled : Bool
deriving DecidableEq

/-- Model of `AIManager.generateWithProvider` at instant `now`.  The
provider adapter call is external I/O; its outcome enters the model as
`providerOutcome` (`none` models a thrown provider error).  Following
the source order: (1) fail with the budget error when
`canMakeRequest()` is false; (2) compute the cache key; (3) when caching
is enabled, consult the cache and return a fresh hit (the source's
`if (cached)` is a JavaScript truthiness test, so a cached empty string
falls through); (4) otherwise call the provider, and on success record
the usage in the ledger and, when caching is enabled, store the
response before returning it. -/
def generateWithProvider (enableCaching : Bool) (now : ℕ)
    (providerOutcome : Option ProviderResponse)
    (tr : TrackerState) (ca : CacheState)
    (code context language : String) : GatewayOutcome :=
  if ¬ canMakeRequest now tr then
    ⟨.budgetExceeded, tr, ca, false⟩
  else
    let key := createCacheKey code context language
    let afterCache : Option String × CacheState :=
      if enableCaching then cacheGet now key ca else (none, ca)
    let callProvider : CacheState → GatewayOutcome := fun ca' =>
      match providerOutcome with
      | none => ⟨.providerFailed, tr, ca', true⟩
      | some resp =>
          let tr' := recordUsage now resp.cost resp.tokensTotal
            resp.provider resp.model "explanation" tr
          let ca'' :=
            if enableCaching then cacheSet now key resp.content ca' else ca'
          ⟨.generated resp.content, tr', ca'', true⟩
    match afterCache with
    | (some cached, ca') =>
        if cached = "" then callProvider ca'
        else ⟨.cachedHit cached, tr, ca', false⟩
    | (none, ca') => callProvider ca'

/-! ## Concrete states used in the analysis -/

/-- A cache at its default capacity of 1000 entries whose entries were
all last accessed at instant 5 (e.g. 1000 insertions within one
millisecond); the keys are the strings "a", "aa", "aaa", ... -/
def fullCacheTiedState : CacheState :=
  { entries := (List.range 1000).map
      (fun i => (String.mk (List.replicate (i + 1) 'a'),
        ⟨"v", 5, 1, 5⟩)) }

/-- A cache at its default capacity of 1000 entries whose i-th entry
(key "a" repeated i+1 times) was last accessed at instant i, so the
key "a" is the unique least-recently-accessed entry. -/
def fullCacheDistinctState : CacheState :=
  { entries := (List.range 1000).map
      (fun i => (String.mk (List.replicate (i + 1) 'a'),
        ⟨"v", i, 1, i⟩)) }

/-! ## Association-list lemmas for the `Map` model -/

theorem mapLookup_mapSet_self (k : String) (v : CacheEntry)
    (l : List (String × CacheEntry)) :
    mapLookup k (mapSet k v l) = some v := by
  induction l with
  | nil => simp [mapSet, mapLookup]
  | cons hd tl ih =>
      obtain ⟨k', v'⟩ := hd
      by_cases h : k' = k <;> simp [mapSet, mapLookup, h, ih]

theorem mapLookup_mapSet_ne {k' k : String} (h : k' ≠ k) (v : CacheEntry)
    (l : List (String × CacheEntry)) :
    mapLookup k' (mapSet k v l) = mapLookup k' l := by
  induction l with
  | nil => simp [mapSet, mapLookup, Ne.symm h]
  | cons hd tl ih =>
      obtain ⟨k₀, v₀⟩ := hd
      by_cases hk : k₀ = k
      · subst hk
        simp [mapSet, mapLookup, Ne.symm h]
      · simp [mapSet, mapLookup, hk, ih]

theorem mapLookup_eq_none_iff (k : String) (l : List (String × CacheEntry)) :
    mapLookup k l = none ↔ k ∉ l.map Prod.fst := by
  induction l with
  | nil => simp [mapLookup]
  | cons hd tl ih =>
      obtain ⟨k₀, v₀⟩ := hd
      by_cases hk : k₀ = k
      · subst hk
        simp [mapLookup]
      · simp [mapLookup, hk, ih, Ne.symm hk]

theorem mapDelete_sublist (k : String) (l : List (String × CacheEntry)) :
    (mapDelete k l).Sublist l := by
  induction l with
  | nil => simp [mapDelete]
  | cons hd tl ih =>
      obtain ⟨k₀, v₀⟩ := hd
      by_cases hk : k₀ = k
      · rw [mapDelete, if_pos hk]
        exact List.sublist_cons_self (k₀, v₀) tl
      · rw [mapDelete, if_neg hk]
        exact ih.cons₂ (k₀, v₀)

theorem mapLookup_mapDelete_self {l : List (String × CacheEntry)}
    (hnd : (l.map Prod.fst).Nodup) (k : String) :
    mapLookup k (mapDelete k l) = none := by
  induction l with
  | nil => simp [mapDelete, mapLookup]
  | cons hd tl ih =>
      obtain ⟨k₀, v₀⟩ := hd
      simp only [List.map_cons, List.nodup_cons] at hnd
      by_cases hk : k₀ = k
      · subst hk
        simp only [mapDelete, if_pos rfl]
        exact (mapLookup_eq_none_iff k₀ tl).mpr hnd.1
      · simp [mapDelete, hk, mapLookup, ih hnd.2]

theorem mem_mapDelete_of_ne {p : String × CacheEntry}
    {l : List (String × CacheEntry)} (hp : p ∈ l) {k : String}
    (hne : p.1 ≠ k) : p ∈ mapDelete k l := by
  induction l with
  | nil => simp at hp
  | cons hd tl ih =>
      obtain ⟨k₀, v₀⟩ := hd
      rcases List.mem_cons.mp hp with h | h
      · subst h
        simp [mapDelete, fun hh => hne hh]
      · by_cases hk : k₀ = k
        · simpa [mapDelete, hk] using h
        · simpa [mapDelete, hk] using Or.inr (ih h)

theorem mem_keys_tail {k k₀ : String} {v₀ : CacheEntry}
    {tl : List (String × CacheEntry)}
    (h : k ∈ ((k₀, v₀) :: tl).map Prod.fst) (hk : k₀ ≠ k) :
    k ∈ tl.map Prod.fst := by
  simp only [List.map_cons, List.mem_cons] at h
  rcases h with h | h
  · exact absurd h.symm hk
  · exact h

theorem length_mapDelete_of_mem {k : String} {l : List (String × CacheEntry)}
    (h : k ∈ l.map Prod.fst) : (mapDelete k l).length = l.length - 1 := by
  induction l with
  | nil => simp at h
  | cons hd tl ih =>
      obtain ⟨k₀, v₀⟩ := hd
      by_cases hk : k₀ = k
      · simp [mapDelete, hk]
      · have htl : k ∈ tl.map Prod.fst := mem_keys_tail h hk
        have hpos : 1 ≤ tl.length := by
          rcases List.mem_map.mp htl with ⟨p, hpmem, _⟩
          exact List.length_pos.mpr (List.ne_nil_of_mem hpmem)
        simp only [mapDelete, hk, if_false, List.length_cons, ih htl]
        omega

theorem length_mapSet_of_mem {k : String} {l : List (String × CacheEntry)}
    (h : k ∈ l.map Prod.fst) (v : CacheEntry) :
    (mapSet k v l).length = l.length := by
  induction l with
  | nil => simp at h
  | cons hd tl ih =>
      obtain ⟨k₀, v₀⟩ := hd
      by_cases hk : k₀ = k
      · simp [mapSet, hk]
      · have htl : k ∈ tl.map Prod.fst := mem_keys_tail h hk
        simp [mapSet, hk, ih htl]

theorem mapSet_eq_append {k : String} {l : List (String × CacheEntry)}
    (h : k ∉ l.map Prod.fst) (v : CacheEntry) :
    mapSet k v l = l ++ [(k, v)] := by
  induction l with
  | nil => simp [mapSet]
  | cons hd tl ih =>
      obtain ⟨k₀, v₀⟩ := hd
      simp only [List.map_cons, List.mem_cons, not_or] at h
      simp [mapSet, Ne.symm h.1, ih h.2]

theorem keys_mapSet_of_mem {k : String} {l : List (String × CacheEntry)}
    (h : k ∈ l.map Prod.fst) (v : CacheEntry) :
    (mapSet k v l).map Prod.fst = l.map Prod.fst := by
  induction l with
  | nil => simp at h
  | cons hd tl ih =>
      obtain ⟨k₀, v₀⟩ := hd
      by_cases hk : k₀ = k
      · simp [mapSet, hk]
      · have htl : k ∈ tl.map Prod.fst := mem_keys_tail h hk
        simp [mapSet, hk, ih htl]

theorem nodup_keys_mapSet {l : List (String × CacheEntry)}
    (hnd : (l.map Prod.fst).Nodup) (k : String) (v : CacheEntry) :
    ((mapSet k v l).map Prod.fst).Nodup := by
  by_cases h : k ∈ l.map Prod.fst
  · rw [keys_mapSet_of_mem h]
    exact hnd
  · rw [mapSet_eq_append h]
    simp only [List.map_append, List.map_cons, List.map_nil]
    refine List.Nodup.append hnd (List.nodup_singleton k) ?_
    intro a ha hak
    rw [List.mem_singleton] at hak
    subst hak
    exact h ha

theorem nodup_keys_mapDelete {l : List (String × CacheEntry)}
    (hnd : (l.map Prod.fst).Nodup) (k : String) :
    ((mapDelete k l).map Prod.fst).Nodup :=
  hnd.sublist ((mapDelete_sublist k l).map Prod.fst)

theorem mapLookup_append_of_none {k : String} {l₁ : List (String × CacheEntry)}
    (h : mapLookup k l₁ = none) (l₂ : List (String × CacheEntry)) :
    mapLookup k (l₁ ++ l₂) = mapLookup k l₂ := by
  induction l₁ with
  | nil => simp
  | cons hd tl ih =>
      obtain ⟨k₀, v₀⟩ := hd
      by_cases hk : k₀ = k
      · simp [mapLookup, hk] at h
      · simp only [mapLookup, hk, if_false] at h
        simp [mapLookup, hk, ih h]

/-! ## The LRU scan of `evictLeastRecentlyUsed` -/

theorem lruScan_const (l : List (String × CacheEntry)) (k : String) (m : ℕ)
    (h : ∀ p ∈ l, ¬ p.2.lastAccessed < m) :
    l.foldl lruScanStep (k, m) = (k, m) := by
  induction l with
  | nil => rfl
  | cons hd tl ih =>
      have hstep : lruScanStep (k, m) hd = (k, m) := by
        simp [lruScanStep, h hd (List.mem_cons_self hd tl)]
      rw [List.foldl_cons, hstep]
      exact ih (fun p hp => h p (List.mem_cons_of_mem hd hp))

theorem lruScan_min (l : List (String × CacheEntry)) (km : String)
    (em : CacheEntry) :
    (km, em) ∈ l →
    (l.map Prod.fst).Nodup →
    (∀ p ∈ l, p.1 ≠ km → em.lastAccessed < p.2.lastAccessed) →
    ∀ (k₀ : String) (n₀ : ℕ), em.lastAccessed < n₀ →
    l.foldl lruScanStep (k₀, n₀) = (km, em.lastAccessed) := by
  induction l with
  | nil =>
      intro hmem
      simp at hmem
  | cons hd tl ih =>
      intro hmem hnd hmin k₀ n₀ hlt
      simp only [List.map_cons, List.nodup_cons] at hnd
      rcases List.mem_cons.mp hmem with hhd | htl
      · subst hhd
        rw [List.foldl_cons]
        have hstep : lruScanStep (k₀, n₀) (km, em) = (km, em.lastAccessed) := by
          simp [lruScanStep, hlt]
        rw [hstep]
        refine lruScan_const tl km em.lastAccessed (fun p hp => ?_)
        have hpk : p.1 ≠ km := by
          intro hk
          apply hnd.1
          show km ∈ List.map Prod.fst tl
          rw [← hk]
          exact List.mem_map_of_mem Prod.fst hp
        exact Nat.not_lt.mpr
          (Nat.le_of_lt (hmin p (List.mem_cons_of_mem _ hp) hpk))
      · have hhdk : hd.1 ≠ km := by
          intro hk
          apply hnd.1
          show hd.1 ∈ List.map Prod.fst tl
          rw [hk]
          exact List.mem_map_of_mem Prod.fst htl
        have hhdlt : em.lastAccessed < hd.2.lastAccessed :=
          hmin hd (List.mem_cons_self hd tl) hhdk
        have hmintl : ∀ p ∈ tl, p.1 ≠ km → em.lastAccessed < p.2.lastAccessed :=
          fun p hp hpk => hmin p (List.mem_cons_of_mem hd hp) hpk
        rw [List.foldl_cons]
        by_cases hcase : hd.2.lastAccessed < n₀
        · have hstep : lruScanStep (k₀, n₀) hd = (hd.1, hd.2.lastAccessed) := by
            simp [lruScanStep, hcase]
          rw [hstep]
          exact ih htl hnd.2 hmintl hd.1 hd.2.lastAccessed hhdlt
        · have hstep : lruScanStep (k₀, n₀) hd = (k₀, n₀) := by
            simp [lruScanStep, hcase]
          rw [hstep]
          exact ih htl hnd.2 hmintl k₀ n₀ hlt

theorem evictLRU_of_no_older (now : ℕ) (l : List (String × CacheEntry))
    (h : ∀ p ∈ l, ¬ p.2.lastAccessed < now) :
    evictLeastRecentlyUsed now l = l := by
  unfold evictLeastRecentlyUsed
  by_cases hnil : l.length = 0
  · simp [hnil]
  · simp only [hnil, if_false]
    rw [lruScan_const l "" now h]
    simp

theorem evictLRU_eq_mapDelete (now : ℕ) (l : List (String × CacheEntry))
    (km : String) (em : CacheEntry)
    (hmem : (km, em) ∈ l)
    (hnd : (l.map Prod.fst).Nodup)
    (hkm : km ≠ "")
    (hlt : em.lastAccessed < now)
    (hmin : ∀ p ∈ l, p.1 ≠ km → em.lastAccessed < p.2.lastAccessed) :
    evictLeastRecentlyUsed now l = mapDelete km l := by
  unfold evictLeastRecentlyUsed
  have hne : l.length ≠ 0 :=
    Nat.pos_iff_ne_zero.mp (List.length_pos.mpr (List.ne_nil_of_mem hmem))
  simp only [hne, if_false]
  rw [lruScan_min l km em hmem hnd hmin "" now hlt]
  simp [hkm]

/-! ## Separator decomposition for the cache-key data string -/

theorem string_eq_of_data_eq {a b : String} (h : a.data = b.data) : a = b := by
  cases a
  cases b
  exact congrArg String.mk (by simpa using h)

theorem append_pipe_inj {a₁ a₂ r₁ r₂ : List Char}
    (h₁ : '|' ∉ a₁) (h₂ : '|' ∉ a₂)
    (h : a₁ ++ '|' :: r₁ = a₂ ++ '|' :: r₂) : a₁ = a₂ ∧ r₁ = r₂ := by
  induction a₁ generalizing a₂ with
  | nil =>
      cases a₂ with
      | nil => simpa using h
      | cons b bs =>
          simp only [List.nil_append, List.cons_append, List.cons.injEq] at h
          exact absurd (h.1 ▸ List.mem_cons_self b bs) h₂
  | cons c cs ih =>
      cases a₂ with
      | nil =>
          simp only [List.nil_append, List.cons_append, List.cons.injEq] at h
          exact absurd (h.1 ▸ List.mem_cons_self c cs) h₁
      | cons b bs =>
          simp only [List.cons_append, List.cons.injEq] at h
          obtain ⟨hcb, hrest⟩ := h
          have h₁' : '|' ∉ cs := fun hm => h₁ (List.mem_cons_of_mem c hm)
          have h₂' : '|' ∉ bs := fun hm => h₂ (List.mem_cons_of_mem b hm)
          obtain ⟨he, hr⟩ := ih h₁' h₂' hrest
          exact ⟨by rw [hcb, he], hr⟩

theorem cacheKeyData_data (code context language : String) :
    (cacheKeyData code context language).data =
      (normalizeCode code).data ++ '|' :: (context.data ++ '|' :: language.data) := by
  simp [cacheKeyData, String.data_append, List.append_assoc]

/-! ## Structural lemmas about `cacheSet` and eviction -/

theorem nodup_keys_evictLRU (now : ℕ) {l : List (String × CacheEntry)}
    (hnd : (l.map Prod.fst).Nodup) :
    ((evictLeastRecentlyUsed now l).map Prod.fst).Nodup := by
  unfold evictLeastRecentlyUsed
  by_cases h0 : l.length = 0
  · simpa [h0] using hnd
  · simp only [h0, if_false]
    by_cases hscan : (l.foldl lruScanStep ("", now)).1 ≠ ""
    · simpa [hscan] using nodup_keys_mapDelete hnd _
    · simpa [hscan] using hnd

theorem cacheSet_entries (now : ℕ) (k content : String) (st : CacheState) :
    (cacheSet now k content st).entries =
      mapSet k ⟨content, now, 1, now⟩
        (if st.entries.length ≥ st.maxCacheSize then
          evictLeastRecentlyUsed now st.entries
        else st.entries) := by
  unfold cacheSet
  by_cases h : st.entries.length ≥ st.maxCacheSize <;> simp [h]

theorem cacheSet_fields (now : ℕ) (k content : String) (st : CacheState) :
    (cacheSet now k content st).hits = st.hits ∧
    (cacheSet now k content st).misses = st.misses ∧
    (cacheSet now k content st).maxCacheSize = st.maxCacheSize ∧
    (cacheSet now k content st).maxAge = st.maxAge := by
  unfold cacheSet
  by_cases h : st.entries.length ≥ st.maxCacheSize <;> simp [h]

theorem nodup_keys_cacheSet (now : ℕ) (k content : String) {st : CacheState}
    (hnd : (st.entries.map Prod.fst).Nodup) :
    ((cacheSet now k content st).entries.map Prod.fst).Nodup := by
  rw [cacheSet_entries]
  apply nodup_keys_mapSet
  by_cases h : st.entries.length ≥ st.maxCacheSize
  · simpa [h] using nodup_keys_evictLRU now hnd
  · simpa [h] using hnd

/-! ## Claim theorems -/

/-- Claim C2: whenever the ledger gate fails (`canMakeRequest()` is
false because the current-period cost has reached the budget limit),
`generateWithProvider` fails with the budget-exceeded error, does not
invoke the provider adapter, and leaves both the cache state and the
usage ledger unchanged — for every caching flag and every possible
provider outcome. -/
theorem budgetExceeded_no_side_effects (enableCaching : Bool) (now : ℕ)
    (po : Option ProviderResponse) (tr : TrackerState) (ca : CacheState)
    (code context language : String)
    (h : canMakeRequest now tr = false) :
    generateWithProvider enableCaching now po tr ca code context language =
      ⟨.budgetExceeded, tr, ca, false⟩ := by
  simp [generateWithProvider, h]

unseal Rat.add Rat.sub Rat.mul Rat.inv Rat.ofScientific in
/-- Claim C2, witness: a ledger holding one record of cost 10 against
the default limit of 10 rejects the request and is returned unchanged
together with the cache. -/
theorem budgetExceeded_no_side_effects_witness :
    generateWithProvider true 1000 none
        ⟨[⟨1000, 10, 100, "OpenAI", "gpt-4", "explanation"⟩], 10, .monthly⟩
        ⟨[], 0, 0, 1000, 604800000⟩ "x" "c" "ts" =
      ⟨.budgetExceeded,
        ⟨[⟨1000, 10, 100, "OpenAI", "gpt-4", "explanation"⟩], 10, .monthly⟩,
        ⟨[], 0, 0, 1000, 604800000⟩, false⟩ :=
  budgetExceeded_no_side_effects true 1000 none
    ⟨[⟨1000, 10, 100, "OpenAI", "gpt-4", "explanation"⟩], 10, .monthly⟩
    ⟨[], 0, 0, 1000, 604800000⟩ "x" "c" "ts" (by decide)

/-- Claim C3: cache round-trip.  After `set(createCacheKey(code,
context, language), v)` at instant `tset`, a `get` of that same key at
instant `tget` returns `v` as long as the TTL has not elapsed
(`tget - tset ≤ maxAge`); once the TTL has elapsed, the `get` deletes
the entry (the key is gone from the store) and reports a miss. -/
theorem cache_set_get_roundTrip (ca : CacheState)
    (code context language v k : String) (tset tget : ℕ)
    (_hk : k = createCacheKey code context language)
    (hnd : (ca.entries.map Prod.fst).Nodup) :
    (tget - tset ≤ ca.maxAge →
      (cacheGet tget k (cacheSet tset k v ca)).1 = some v) ∧
    (tget - tset > ca.maxAge →
      (cacheGet tget k (cacheSet tset k v ca)).1 = none ∧
      mapLookup k (cacheGet tget k (cacheSet tset k v ca)).2.entries = none ∧
      (cacheGet tget k (cacheSet tset k v ca)).2.misses = ca.misses + 1) := by
  have hlook : mapLookup k (cacheSet tset k v ca).entries =
      some ⟨v, tset, 1, tset⟩ := by
    rw [cacheSet_entries]
    exact mapLookup_mapSet_self k _ _
  have hnd1 : ((cacheSet tset k v ca).entries.map Prod.fst).Nodup :=
    nodup_keys_cacheSet tset k v hnd
  have hage : (cacheSet tset k v ca).maxAge = ca.maxAge :=
    (cacheSet_fields tset k v ca).2.2.2
  have hmiss : (cacheSet tset k v ca).misses = ca.misses :=
    (cacheSet_fields tset k v ca).2.1
  constructor
  · intro hfresh
    have hcond : ¬ tget - tset > (cacheSet tset k v ca).maxAge := by
      rw [hage]
      omega
    simp [cacheGet, hlook, hcond]
  · intro hexp
    have hcond : tget - tset > (cacheSet tset k v ca).maxAge := by
      rw [hage]
      omega
    refine ⟨by simp [cacheGet, hlook, hcond], ?_, ?_⟩
    · simp only [cacheGet, hlook, hcond, if_pos]
      exact mapLookup_mapDelete_self hnd1 k
    · simp [cacheGet, hlook, hcond, hmiss]

/-- Claim C3, witness: on the empty cache, a value stored at instant 0
is returned by a `get` at instant 1, and a `get` at an instant past the
7-day TTL misses and deletes the entry. -/
theorem cache_set_get_roundTrip_witness :
    ((cacheGet 1 (createCacheKey "x" "c" "ts")
        (cacheSet 0 (createCacheKey "x" "c" "ts") "r"
          ⟨[], 0, 0, 1000, 604800000⟩)).1 = some "r") ∧
    ((cacheGet 604800002 (createCacheKey "x" "c" "ts")
        (cacheSet 0 (createCacheKey "x" "c" "ts") "r"
          ⟨[], 0, 0, 1000, 604800000⟩)).1 = none) :=
  ⟨(cache_set_get_roundTrip ⟨[], 0, 0, 1000, 604800000⟩ "x" "c" "ts" "r"
      (createCacheKey "x" "c" "ts") 0 1 rfl (by simp)).1 (by decide),
   ((cache_set_get_roundTrip ⟨[], 0, 0, 1000, 604800000⟩ "x" "c" "ts" "r"
      (createCacheKey "x" "c" "ts") 0 604800002 rfl (by simp)).2 (by decide)).1⟩

unseal Rat.add Rat.sub Rat.mul Rat.inv Rat.ofScientific in
/-- Claim C1, counterexample: the claimed order (cache check before
budget check) fails on the code.  With caching enabled, a fresh cached
entry for the request's key, and `canMakeRequest()` false, the call
returns the budget error instead of the cached value: the budget gate
runs first. -/
theorem budget_before_cache_counterexample :
    canMakeRequest 1000
        ⟨[⟨1000, 10, 100, "OpenAI", "gpt-4", "explanation"⟩], 10, .monthly⟩ =
      false ∧
    (cacheGet 1000 (createCacheKey "x" "c" "ts")
        ⟨[("x|c|ts", ⟨"expl", 900, 1, 900⟩)], 0, 0, 1000, 604800000⟩).1 =
      some "expl" ∧
    (generateWithProvider true 1000 none
        ⟨[⟨1000, 10, 100, "OpenAI", "gpt-4", "explanation"⟩], 10, .monthly⟩
        ⟨[("x|c|ts", ⟨"expl", 900, 1, 900⟩)], 0, 0, 1000, 604800000⟩
        "x" "c" "ts").result = GenResult.budgetExceeded ∧
    (generateWithProvider true 1000 none
        ⟨[⟨1000, 10, 100, "OpenAI", "gpt-4", "explanation"⟩], 10, .monthly⟩
        ⟨[("x|c|ts", ⟨"expl", 900, 1, 900⟩)], 0, 0, 1000, 604800000⟩
        "x" "c" "ts").result ≠ GenResult.cachedHit "expl" := by
  decide

/-- Claim C1 (amended): in `generateWithProvider` the budget check
precedes the cache check.  When `canMakeRequest()` is false the request
fails with the budget error even if a fresh cache entry exists; a fresh
(nonempty) cached value is returned without a provider call only once
the budget gate has passed. -/
theorem budget_gate_precedes_cache_hit (enableCaching : Bool) (now : ℕ)
    (po : Option ProviderResponse) (tr : TrackerState) (ca : CacheState)
    (code context language v : String) :
    (canMakeRequest now tr = false →
      (generateWithProvider enableCaching now po tr ca
        code context language).result = GenResult.budgetExceeded) ∧
    (canMakeRequest now tr = true → enableCaching = true → v ≠ "" →
      (cacheGet now (createCacheKey code context language) ca).1 = some v →
      generateWithProvider enableCaching now po tr ca code context language =
        ⟨GenResult.cachedHit v, tr,
          (cacheGet now (createCacheKey code context language) ca).2,
          false⟩) := by
  constructor
  · intro h
    simp [generateWithProvider, h]
  · intro hbudget hcache hv hget
    subst hcache
    rcases hE : cacheGet now (createCacheKey code context language) ca
      with ⟨o, st'⟩
    rw [hE] at hget
    simp only at hget
    subst hget
    simp [generateWithProvider, hbudget, hE, hv]

unseal Rat.add Rat.sub Rat.mul Rat.inv Rat.ofScientific in
/-- Claim C1 (amended), witness: with budget exhausted the concrete
call fails with the budget error; with budget available the same
cached entry is served without a provider call. -/
theorem budget_gate_precedes_cache_hit_witness :
    ((generateWithProvider true 1000 none
        ⟨[⟨1000, 10, 100, "OpenAI", "gpt-4", "explanation"⟩], 10, .monthly⟩
        ⟨[("x|c|ts", ⟨"expl", 900, 1, 900⟩)], 0, 0, 1000, 604800000⟩
        "x" "c" "ts").result = GenResult.budgetExceeded) ∧
    (generateWithProvider true 1000 none ⟨[], 10, .monthly⟩
        ⟨[("x|c|ts", ⟨"expl", 900, 1, 900⟩)], 0, 0, 1000, 604800000⟩
        "x" "c" "ts" =
      ⟨GenResult.cachedHit "expl", ⟨[], 10, .monthly⟩,
        (cacheGet 1000 (createCacheKey "x" "c" "ts")
          ⟨[("x|c|ts", ⟨"expl", 900, 1, 900⟩)], 0, 0, 1000, 604800000⟩).2,
        false⟩) :=
  ⟨(budget_gate_precedes_cache_hit true 1000 none
      ⟨[⟨1000, 10, 100, "OpenAI", "gpt-4", "explanation"⟩], 10, .monthly⟩
      ⟨[("x|c|ts", ⟨"expl", 900, 1, 900⟩)], 0, 0, 1000, 604800000⟩
      "x" "c" "ts" "expl").1 (by decide),
   (budget_gate_precedes_cache_hit true 1000 none ⟨[], 10, .monthly⟩
      ⟨[("x|c|ts", ⟨"expl", 900, 1, 900⟩)], 0, 0, 1000, 604800000⟩
      "x" "c" "ts" "expl").2 (by decide) rfl (by decide) (by decide)⟩

/-- Claim C4, counterexample: the claim fails as stated.  On a cache at
its default capacity of 1000 whose entries were all last accessed at
the current instant (possible when the insertions and the new `set`
share a millisecond), a `set` of a new distinct key evicts nothing —
the LRU scan starts at `Date.now()` and looks for a strictly smaller
`lastAccessed` — and the store grows to 1001 entries. -/
theorem lru_eviction_counterexample :
    fullCacheTiedState.entries.length = fullCacheTiedState.maxCacheSize ∧
    mapLookup "b" fullCacheTiedState.entries = none ∧
    (cacheSet 5 "b" "w" fullCacheTiedState).entries.length =
      fullCacheTiedState.maxCacheSize + 1 := by
  have hlen : fullCacheTiedState.entries.length = 1000 := by
    simp [fullCacheTiedState]
  have hnotb : "b" ∉ fullCacheTiedState.entries.map Prod.fst := by
    simp only [fullCacheTiedState, List.map_map]
    intro hmem
    rcases List.mem_map.mp hmem with ⟨i, _, hi⟩
    simp only [Function.comp_apply] at hi
    have hdata : List.replicate (i + 1) 'a' = ['b'] := congrArg String.data hi
    rw [List.replicate_succ] at hdata
    simp at hdata
  have hnoold : ∀ p ∈ fullCacheTiedState.entries, ¬ p.2.lastAccessed < 5 := by
    intro p hp
    simp only [fullCacheTiedState] at hp
    rcases List.mem_map.mp hp with ⟨i, _, hi⟩
    rw [← hi]
    simp
  have hge : fullCacheTiedState.entries.length ≥ fullCacheTiedState.maxCacheSize := by
    rw [hlen]
    exact le_refl _
  refine ⟨hlen, (mapLookup_eq_none_iff _ _).mpr hnotb, ?_⟩
  rw [cacheSet_entries, if_pos hge, evictLRU_of_no_older _ _ hnoold,
    mapSet_eq_append hnotb, List.length_append, hlen]
  rfl

/-- Claim C4 (amended): on a cache at capacity with pairwise distinct
keys, a `set` of a new distinct key removes exactly the
least-recently-accessed entry — provided that entry's key is nonempty,
that it was last accessed strictly before the current instant, and
that it is the unique minimum — and every other entry remains, the
store ending at exactly its capacity again.  (When no entry is strictly
older than the current instant, nothing is evicted — see the
counterexample.) -/
theorem lru_eviction_exact (st : CacheState) (now : ℕ) (k v km : String)
    (em : CacheEntry)
    (hcap : st.entries.length = st.maxCacheSize)
    (hnd : (st.entries.map Prod.fst).Nodup)
    (hfresh : mapLookup k st.entries = none)
    (hmem : (km, em) ∈ st.entries)
    (hkm : km ≠ "")
    (hlt : em.lastAccessed < now)
    (hmin : ∀ p ∈ st.entries, p.1 ≠ km → em.lastAccessed < p.2.lastAccessed) :
    (cacheSet now k v st).entries =
      mapDelete km st.entries ++ [(k, ⟨v, now, 1, now⟩)] ∧
    mapLookup km (cacheSet now k v st).entries = none ∧
    (∀ p ∈ st.entries, p.1 ≠ km → p ∈ (cacheSet now k v st).entries) ∧
    (cacheSet now k v st).entries.length = st.maxCacheSize := by
  have hgecap : st.entries.length ≥ st.maxCacheSize := le_of_eq hcap.symm
  have hevict : evictLeastRecentlyUsed now st.entries = mapDelete km st.entries :=
    evictLRU_eq_mapDelete now st.entries km em hmem hnd hkm hlt hmin
  have hknotin : k ∉ st.entries.map Prod.fst :=
    (mapLookup_eq_none_iff k st.entries).mp hfresh
  have hknotdel : k ∉ (mapDelete km st.entries).map Prod.fst := fun hmemk =>
    hknotin (((mapDelete_sublist km st.entries).map Prod.fst).subset hmemk)
  have hentries : (cacheSet now k v st).entries =
      mapDelete km st.entries ++ [(k, ⟨v, now, 1, now⟩)] := by
    rw [cacheSet_entries, if_pos hgecap, hevict, mapSet_eq_append hknotdel]
  have hkmmem : km ∈ st.entries.map Prod.fst :=
    List.mem_map_of_mem Prod.fst hmem
  have hkmne : km ≠ k := by
    intro h
    apply hknotin
    rw [← h]
    exact hkmmem
  refine ⟨hentries, ?_, ?_, ?_⟩
  · rw [hentries, mapLookup_append_of_none (mapLookup_mapDelete_self hnd km)]
    simp [mapLookup, Ne.symm hkmne]
  · intro p hp hpk
    rw [hentries]
    exact List.mem_append_left _ (mem_mapDelete_of_ne hp hpk)
  · have hdlen := length_mapDelete_of_mem hkmmem
    have hpos : 1 ≤ st.entries.length :=
      List.length_pos.mpr (List.ne_nil_of_mem hmem)
    rw [hentries, List.length_append, hdlen]
    simp only [List.length_singleton]
    omega

/-- Claim C4 (amended), witness: a capacity-2 cache holding keys "a"
(accessed at 1) and "b" (accessed at 3); setting the fresh key "c" at
instant 10 evicts exactly "a" and leaves "b" and the new entry. -/
theorem lru_eviction_exact_witness :
    (cacheSet 10 "c" "w"
        ⟨[("a", ⟨"va", 1, 1, 1⟩), ("b", ⟨"vb", 3, 1, 3⟩)],
          0, 0, 2, 604800000⟩).entries =
      [("b", ⟨"vb", 3, 1, 3⟩), ("c", ⟨"w", 10, 1, 10⟩)] ∧
    (cacheSet 10 "c" "w"
        ⟨[("a", ⟨"va", 1, 1, 1⟩), ("b", ⟨"vb", 3, 1, 3⟩)],
          0, 0, 2, 604800000⟩).entries.length = 2 :=
  ⟨((lru_eviction_exact
      ⟨[("a", ⟨"va", 1, 1, 1⟩), ("b", ⟨"vb", 3, 1, 3⟩)], 0, 0, 2, 604800000⟩
      10 "c" "w" "a" ⟨"va", 1, 1, 1⟩ (by decide) (by decide) (by decide)
      (by decide) (by decide) (by decide) (by decide)).1).trans (by decide),
   (lru_eviction_exact
      ⟨[("a", ⟨"va", 1, 1, 1⟩), ("b", ⟨"vb", 3, 1, 3⟩)], 0, 0, 2, 604800000⟩
      10 "c" "w" "a" ⟨"va", 1, 1, 1⟩ (by decide) (by decide) (by decide)
      (by decide) (by decide) (by decide) (by decide)).2.2.2⟩

/-- Claim C9, counterexample: the claim fails as stated.  On a cache at
its default capacity of 1000 with pairwise distinct access times, a
`set` of the key that is itself the least-recently-accessed entry first
evicts that very key and then re-inserts it, so the store stays at
capacity (1000 entries) instead of shrinking by one. -/
theorem overwrite_at_capacity_counterexample :
    fullCacheDistinctState.entries.length = fullCacheDistinctState.maxCacheSize ∧
    ("a", (⟨"v", 0, 1, 0⟩ : CacheEntry)) ∈ fullCacheDistinctState.entries ∧
    (cacheSet 2000 "a" "w" fullCacheDistinctState).entries.length =
      fullCacheDistinctState.maxCacheSize := by
  have hlen : fullCacheDistinctState.entries.length = 1000 := by
    simp [fullCacheDistinctState]
  have hnd : (fullCacheDistinctState.entries.map Prod.fst).Nodup := by
    simp only [fullCacheDistinctState, List.map_map]
    refine List.Nodup.map ?_ (List.nodup_range 1000)
    intro i j hij
    simp only [Function.comp_apply] at hij
    have hlenr := congrArg (fun s => s.data.length) hij
    simp only [List.length_replicate] at hlenr
    omega
  have hmem0 : ("a", (⟨"v", 0, 1, 0⟩ : CacheEntry)) ∈
      fullCacheDistinctState.entries := by
    simp only [fullCacheDistinctState]
    exact List.mem_map.mpr ⟨0, List.mem_range.mpr (by norm_num), by decide⟩
  have hmin : ∀ p ∈ fullCacheDistinctState.entries, p.1 ≠ "a" →
      (⟨"v", 0, 1, 0⟩ : CacheEntry).lastAccessed < p.2.lastAccessed := by
    intro p hp hpk
    simp only [fullCacheDistinctState] at hp
    rcases List.mem_map.mp hp with ⟨i, _, hi⟩
    subst hi
    show 0 < i
    by_contra h0
    push_neg at h0
    have hi0 : i = 0 := Nat.le_zero.mp h0
    subst hi0
    exact hpk (by decide)
  have hevict := evictLRU_eq_mapDelete 2000 fullCacheDistinctState.entries
    "a" ⟨"v", 0, 1, 0⟩ hmem0 hnd (by decide) (by decide) hmin
  have hkeymem : "a" ∈ fullCacheDistinctState.entries.map Prod.fst :=
    List.mem_map_of_mem Prod.fst hmem0
  have hdellen : (mapDelete "a" fullCacheDistinctState.entries).length = 999 := by
    rw [length_mapDelete_of_mem hkeymem, hlen]
  have hnotdel : "a" ∉ (mapDelete "a" fullCacheDistinctState.entries).map Prod.fst := by
    rw [← mapLookup_eq_none_iff]
    exact mapLookup_mapDelete_self hnd "a"
  have hge : fullCacheDistinctState.entries.length ≥
      fullCacheDistinctState.maxCacheSize := by
    rw [hlen]
    exact le_refl _
  refine ⟨hlen, hmem0, ?_⟩
  rw [cacheSet_entries, if_pos hge, hevict, mapSet_eq_append hnotdel,
    List.length_append, hdellen]
  rfl

/-- Claim C9 (amended): on a cache at capacity with pairwise distinct
keys, a `set` of a key that is already present still runs the LRU
eviction first (the capacity check precedes any key-presence check);
when the evicted least-recently-accessed entry (nonempty key, unique
minimum strictly older than the current instant) is not the overwritten
key itself, a different entry is deleted and the store shrinks to
capacity minus one instead of staying at capacity. -/
theorem overwrite_at_capacity_evicts (st : CacheState) (now : ℕ)
    (k v km : String) (em : CacheEntry)
    (hcap : st.entries.length = st.maxCacheSize)
    (hnd : (st.entries.map Prod.fst).Nodup)
    (hk : k ∈ st.entries.map Prod.fst)
    (hmem : (km, em) ∈ st.entries)
    (hkm : km ≠ "") (hkne : km ≠ k)
    (hlt : em.lastAccessed < now)
    (hmin : ∀ p ∈ st.entries, p.1 ≠ km → em.lastAccessed < p.2.lastAccessed) :
    (cacheSet now k v st).entries =
      mapSet k ⟨v, now, 1, now⟩ (mapDelete km st.entries) ∧
    mapLookup km (cacheSet now k v st).entries = none ∧
    mapLookup k (cacheSet now k v st).entries = some ⟨v, now, 1, now⟩ ∧
    (cacheSet now k v st).entries.length = st.maxCacheSize - 1 := by
  have hgecap : st.entries.length ≥ st.maxCacheSize := le_of_eq hcap.symm
  have hevict : evictLeastRecentlyUsed now st.entries = mapDelete km st.entries :=
    evictLRU_eq_mapDelete now st.entries km em hmem hnd hkm hlt hmin
  have hentries : (cacheSet now k v st).entries =
      mapSet k ⟨v, now, 1, now⟩ (mapDelete km st.entries) := by
    rw [cacheSet_entries, if_pos hgecap, hevict]
  have hkdel : k ∈ (mapDelete km st.entries).map Prod.fst := by
    rcases List.mem_map.mp hk with ⟨p, hp, hpk⟩
    have hp1 : p.1 ≠ km := by
      rw [hpk]
      exact Ne.symm hkne
    exact List.mem_map.mpr ⟨p, mem_mapDelete_of_ne hp hp1, hpk⟩
  have hkmmem : km ∈ st.entries.map Prod.fst :=
    List.mem_map_of_mem Prod.fst hmem
  refine ⟨hentries, ?_, ?_, ?_⟩
  · rw [hentries, mapLookup_mapSet_ne hkne _ _]
    exact mapLookup_mapDelete_self hnd km
  · rw [hentries]
    exact mapLookup_mapSet_self _ _ _
  · rw [hentries, length_mapSet_of_mem hkdel _, length_mapDelete_of_mem hkmmem,
      hcap]

/-- Claim C9 (amended), witness: a capacity-2 cache holding "a"
(accessed at 1) and "b" (accessed at 3); overwriting "b" at instant 10
evicts "a" and the store shrinks to a single entry. -/
theorem overwrite_at_capacity_evicts_witness :
    (cacheSet 10 "b" "w"
        ⟨[("a", ⟨"va", 1, 1, 1⟩), ("b", ⟨"vb", 3, 1, 3⟩)],
          0, 0, 2, 604800000⟩).entries = [("b", ⟨"w", 10, 1, 10⟩)] ∧
    (cacheSet 10 "b" "w"
        ⟨[("a", ⟨"va", 1, 1, 1⟩), ("b", ⟨"vb", 3, 1, 3⟩)],
          0, 0, 2, 604800000⟩).entries.length = 1 :=
  ⟨((overwrite_at_capacity_evicts
      ⟨[("a", ⟨"va", 1, 1, 1⟩), ("b", ⟨"vb", 3, 1, 3⟩)], 0, 0, 2, 604800000⟩
      10 "b" "w" "a" ⟨"va", 1, 1, 1⟩ (by decide) (by decide) (by decide)
      (by decide) (by decide) (by decide) (by decide) (by decide)).1).trans
      (by decide),
   (overwrite_at_capacity_evicts
      ⟨[("a", ⟨"va", 1, 1, 1⟩), ("b", ⟨"vb", 3, 1, 3⟩)], 0, 0, 2, 604800000⟩
      10 "b" "w" "a" ⟨"va", 1, 1, 1⟩ (by decide) (by decide) (by decide)
      (by decide) (by decide) (by decide) (by decide) (by decide)).2.2.2⟩

/-- Claim C5: in dual-provider mode with both tiers configured,
`generateExplanation` routes to the premium (performance) tier and its
model exactly when the complexity score is at least the effective
threshold, and to the economy (efficiency) tier exactly when the score
is strictly below it; a score exactly equal to the threshold therefore
routes to the premium tier. -/
theorem tier_selection_boundary (cfg : DualConfig) (pc : List ℕ) (fc : ℕ)
    (code context language : String) :
    ((generateExplanationRoute cfg pc fc code context language).1 =
        Tier.performance ↔
      effectiveThreshold cfg ≤
        analyzeCodeComplexity pc fc code context language) ∧
    ((generateExplanationRoute cfg pc fc code context language).1 =
        Tier.efficiency ↔
      analyzeCodeComplexity pc fc code context language <
        effectiveThreshold cfg) ∧
    (analyzeCodeComplexity pc fc code context language =
        effectiveThreshold cfg →
      generateExplanationRoute cfg pc fc code context language =
        (Tier.performance, cfg.performanceModel)) := by
  by_cases h : effectiveThreshold cfg ≤
      analyzeCodeComplexity pc fc code context language
  · exact ⟨by simp [generateExplanationRoute, ge_iff_le, h],
      by simp [generateExplanationRoute, ge_iff_le, h, not_lt.mpr h],
      fun _ => by simp [generateExplanationRoute, ge_iff_le, h]⟩
  · exact ⟨by simp [generateExplanationRoute, ge_iff_le, h],
      by simp [generateExplanationRoute, ge_iff_le, h, lt_of_not_le h],
      fun heq => absurd (le_of_eq heq.symm) h⟩

/-- Claim C6, counterexample: the cache key does not uniquely determine
the input triple.  The separator `|` may occur in the inputs, so the
distinct triples ("a", "b|c", "d") and ("a|b", "c", "d") — whose
contexts differ, and whose codes differ even after normalization —
produce the same key. -/
theorem createCacheKey_collision :
    createCacheKey "a" "b|c" "d" = createCacheKey "a|b" "c" "d" ∧
    ("b|c" : String) ≠ "c" ∧
    normalizeCode "a" ≠ normalizeCode "a|b" := by
  decide

/-- Claim C6 (amended): the key determines the `|`-joined data string,
and it determines the triple (normalized code, context, language)
whenever the normalized code and the context contain no `|`
character. -/
theorem createCacheKey_inj_of_no_separator (c₁ x₁ l₁ c₂ x₂ l₂ : String)
    (h₁ : '|' ∉ (normalizeCode c₁).data) (h₂ : '|' ∉ x₁.data)
    (h₃ : '|' ∉ (normalizeCode c₂).data) (h₄ : '|' ∉ x₂.data)
    (h : createCacheKey c₁ x₁ l₁ = createCacheKey c₂ x₂ l₂) :
    normalizeCode c₁ = normalizeCode c₂ ∧ x₁ = x₂ ∧ l₁ = l₂ := by
  have hdata : (cacheKeyData c₁ x₁ l₁).data = (cacheKeyData c₂ x₂ l₂).data :=
    congrArg String.data h
  rw [cacheKeyData_data, cacheKeyData_data] at hdata
  obtain ⟨e₁, e⟩ := append_pipe_inj h₁ h₃ hdata
  obtain ⟨e₂, e₃⟩ := append_pipe_inj h₂ h₄ e
  exact ⟨string_eq_of_data_eq e₁, string_eq_of_data_eq e₂,
    string_eq_of_data_eq e₃⟩

/-- Claim C6 (amended), witness: on separator-free inputs the
injectivity holds at a concrete instance. -/
theorem createCacheKey_inj_witness :
    normalizeCode "a" = normalizeCode "a" ∧ ("b" : String) = "b" ∧
    ("c" : String) = "c" :=
  createCacheKey_inj_of_no_separator "a" "b" "c" "a" "b" "c"
    (by decide) (by decide) (by decide) (by decide) rfl

/-- Claim C7: for every input (and every possible outcome of the host
regex engine on the complex-construct patterns), the complexity score
returned by `analyzeCodeComplexity` lies within `[0, 1]`, by the final
clamp `Math.min(Math.max(score, 0.0), 1.0)`. -/
theorem analyzeCodeComplexity_range (pc : List ℕ) (fc : ℕ)
    (code context language : String) :
    0 ≤ analyzeCodeComplexity pc fc code context language ∧
    analyzeCodeComplexity pc fc code context language ≤ 1 := by
  unfold analyzeCodeComplexity
  exact ⟨le_min (le_max_right _ _) zero_le_one, min_le_right _ _⟩

unseal Rat.add Rat.sub Rat.mul Rat.inv Rat.ofScientific in
/-- Claim C5, witness: with a configured threshold of 0.05 and inputs
scoring exactly 0.05 (one short line of `python`, no patterns), the
route is the premium tier and its model. -/
theorem tier_selection_boundary_witness :
    generateExplanationRoute { complexityThreshold := some 0.05 } [] 0
        "x" "" "python" = (Tier.performance, "gpt-4") :=
  (tier_selection_boundary { complexityThreshold := some 0.05 } [] 0
    "x" "" "python").2.2 (by decide)

unseal Rat.add Rat.sub Rat.mul Rat.inv Rat.ofScientific in
/-- Claim C8, counterexample: the reported hit rate is not
`hits / (hits + misses)`.  After 1 hit and 2 misses the true ratio is
1/3, but `getStats` reports `Math.round(100/3)/100 = 33/100`. -/
theorem hitRate_rounding_counterexample :
    (getCacheStats ⟨[], 1, 2, 1000, 604800000⟩).hitRate = 33 / 100 ∧
    (getCacheStats ⟨[], 1, 2, 1000, 604800000⟩).hitRate ≠ 1 / 3 := by
  decide

/-- Claim C8 (amended): `getStats` reports a hit rate of 0 when no get
requests have been made, and otherwise reports `hits / (hits + misses)`
rounded to the nearest hundredth (`Math.round(rate * 100) / 100`), which
is within 1/200 of the true ratio. -/
theorem hitRate_rounded_ratio (st : CacheState) :
    (st.hits + st.misses = 0 → (getCacheStats st).hitRate = 0) ∧
    (0 < st.hits + st.misses →
      (getCacheStats st).hitRate =
        (round ((st.hits : ℚ) / ((st.hits : ℚ) + (st.misses : ℚ)) * 100) : ℚ)
          / 100 ∧
      |(getCacheStats st).hitRate -
        (st.hits : ℚ) / ((st.hits : ℚ) + (st.misses : ℚ))| ≤ 1 / 200) := by
  constructor
  · intro h0
    simp [getCacheStats, h0]
  · intro hpos
    have heq : (getCacheStats st).hitRate =
        (round ((st.hits : ℚ) / ((st.hits : ℚ) + (st.misses : ℚ)) * 100) : ℚ)
          / 100 := by
      simp only [getCacheStats, hpos, if_pos]
      push_cast
      ring_nf
    refine ⟨heq, ?_⟩
    rw [heq]
    have hsplit :
        (round ((st.hits : ℚ) / ((st.hits : ℚ) + (st.misses : ℚ)) * 100) : ℚ)
            / 100 - (st.hits : ℚ) / ((st.hits : ℚ) + (st.misses : ℚ)) =
          ((round ((st.hits : ℚ) / ((st.hits : ℚ) + (st.misses : ℚ)) * 100) : ℚ)
            - (st.hits : ℚ) / ((st.hits : ℚ) + (st.misses : ℚ)) * 100) / 100 := by
      ring
    rw [hsplit, abs_div]
    have h100 : |(100 : ℚ)| = 100 := by norm_num
    rw [h100]
    have hb : |(round ((st.hits : ℚ) / ((st.hits : ℚ) + (st.misses : ℚ)) * 100) : ℚ)
        - (st.hits : ℚ) / ((st.hits : ℚ) + (st.misses : ℚ)) * 100| ≤ 1 / 2 := by
      rw [abs_sub_comm]
      exact abs_sub_round _
    calc |(round ((st.hits : ℚ) / ((st.hits : ℚ) + (st.misses : ℚ)) * 100) : ℚ)
          - (st.hits : ℚ) / ((st.hits : ℚ) + (st.misses : ℚ)) * 100| / 100
        ≤ (1 / 2) / 100 := by gcongr
      _ = 1 / 200 := by norm_num

unseal Rat.add Rat.sub Rat.mul Rat.inv Rat.ofScientific in
/-- Claim C8 (amended), witness: with 3 hits and 1 miss the reported
hit rate is exactly the true ratio 3/4 (which rounds to itself). -/
theorem hitRate_rounded_ratio_witness :
    (getCacheStats ⟨[], 3, 1, 1000, 604800000⟩).hitRate = 3 / 4 :=
  (((hitRate_rounded_ratio ⟨[], 3, 1, 1000, 604800000⟩).2 (by decide)).1).trans
    (by decide)

/-- Claim C10: every `recordUsage` call appends the new record and then
truncates the history to at most the most recent `maxRecords = 10000`
records (dropping the oldest beyond the cap), so afterwards the ledger
holds exactly `min (previous + 1) 10000` records, a suffix of the
appended history; the budget configuration is unchanged, and the
aggregation functions read only this retained history. -/
theorem recordUsage_truncates (now : ℕ) (cost : ℚ) (tokens : ℕ)
    (provider model requestType : String) (st : TrackerState) :
    (recordUsage now cost tokens provider model requestType st).usageHistory =
      (st.usageHistory ++
        [(⟨now, cost, tokens, provider, model, requestType⟩ : UsageRecord)]).drop
        (st.usageHistory.length + 1 - maxRecords) ∧
    (recordUsage now cost tokens provider model requestType
        st).usageHistory.length =
      min (st.usageHistory.length + 1) maxRecords ∧
    (∃ dropped,
      st.usageHistory ++ [(⟨now, cost, tokens, provider, model, requestType⟩ : UsageRecord)] =
        dropped ++
          (recordUsage now cost tokens provider model requestType
            st).usageHistory) ∧
    (recordUsage now cost tokens provider model requestType st).budgetLimit =
      st.budgetLimit ∧
    (recordUsage now cost tokens provider model requestType st).budgetPeriod =
      st.budgetPeriod := by
  set r : UsageRecord := ⟨now, cost, tokens, provider, model, requestType⟩
    with hr
  have hbody : (recordUsage now cost tokens provider model requestType
      st).usageHistory =
      if (st.usageHistory ++ [r]).length > maxRecords then
        (st.usageHistory ++ [r]).drop ((st.usageHistory ++ [r]).length - maxRecords)
      else st.usageHistory ++ [r] := rfl
  have hlen : (st.usageHistory ++ [r]).length = st.usageHistory.length + 1 := by
    simp
  by_cases hc : st.usageHistory.length + 1 > maxRecords
  · have hcond : (st.usageHistory ++ [r]).length > maxRecords := by
      rw [hlen]
      exact hc
    have hhist : (recordUsage now cost tokens provider model requestType
        st).usageHistory =
        (st.usageHistory ++ [r]).drop (st.usageHistory.length + 1 - maxRecords) := by
      rw [hbody, if_pos hcond, hlen]
    refine ⟨hhist, ?_, ?_, rfl, rfl⟩
    · rw [hhist, List.length_drop, hlen]
      omega
    · exact ⟨(st.usageHistory ++ [r]).take (st.usageHistory.length + 1 - maxRecords),
        by rw [hhist, List.take_append_drop]⟩
  · have hcond : ¬ (st.usageHistory ++ [r]).length > maxRecords := by
      rw [hlen]
      exact hc
    have hz : st.usageHistory.length + 1 - maxRecords = 0 := by omega
    have hhist : (recordUsage now cost tokens provider model requestType
        st).usageHistory = st.usageHistory ++ [r] := by
      rw [hbody, if_neg hcond]
    refine ⟨?_, ?_, ⟨[], by rw [hhist, List.nil_append]⟩, rfl, rfl⟩
    · rw [hhist, hz, List.drop_zero]
    · rw [hhist, hlen]
      omega

end Codora
